import Mathlib

/-!
Verification of the edge-aware graph-diffusion denoising engine of
`parallel_classical_vs_graph_denoising` against its specification.

The development shallowly embeds the two variants of the engine:

* `src/hybrid/graph_denoise_rgb.c` — `graph_diffusion_rgb_parallel`
  (MPI + OpenMP): block row decomposition, per-round stencil update of the
  local effective region, and an `MPI_Allgatherv` exchange that rebuilds the
  shared snapshot each round;
* `src/serial/graph_denoise_rgb.c` — `graph_diffusion_rgb`: the
  single-process variant with ping-pong buffer swapping.

Pixel buffers are modelled as functions `Nat -> Int` (byte index to channel
value); the C `unsigned char` values are integers in `[0,255]`.  The
floating-point stencil arithmetic (`float`, `expf`, `fabsf`, `fminf`,
`fmaxf`) is modelled over the real numbers; the final
`(unsigned char)` cast of a clamped non-negative value is truncation,
modelled with `Int.floor`.  The content of the serial variant's
`malloc`-ed, never-initialised output buffer is modelled as an explicit
`junk` parameter, since the bytes the program leaves unwritten (and, for
even iteration counts, returns) come from that indeterminate buffer.
-/

namespace GraphDenoise

/-! ### Raster buffer indexing

The C code stores an image row-major as `[R,G,B,R,G,B,...]` and addresses
channel `c` of pixel `(y, x)` at byte index `(y * width + x) * 3 + c`.
`rowOf`/`colOf`/`chanOf` recover `(y, x, c)` from a byte index. -/

def pix (w y x c : ℕ) : ℕ := (y * w + x) * 3 + c

def rowOf (w i : ℕ) : ℕ := i / (3 * w)

def colOf (w i : ℕ) : ℕ := i % (3 * w) / 3

def chanOf (i : ℕ) : ℕ := i % 3

theorem pix_eq (w y x c : ℕ) : pix w y x c = 3 * w * y + (3 * x + c) := by
  unfold pix; ring

theorem rowOf_pix (w y x c : ℕ) (hx : x < w) (hc : c < 3) :
    rowOf w (pix w y x c) = y := by
  have hw : 0 < 3 * w := by omega
  have hm : 3 * x + c < 3 * w := by omega
  unfold rowOf
  rw [pix_eq, Nat.mul_add_div hw, Nat.div_eq_of_lt hm]
  omega

theorem colOf_pix (w y x c : ℕ) (hx : x < w) (hc : c < 3) :
    colOf w (pix w y x c) = x := by
  have hm : 3 * x + c < 3 * w := by omega
  unfold colOf
  rw [pix_eq, Nat.mul_add_mod, Nat.mod_eq_of_lt hm,
    Nat.mul_add_div (by omega : (0:ℕ) < 3), Nat.div_eq_of_lt hc]
  omega

theorem chanOf_pix (w y x c : ℕ) (hc : c < 3) :
    chanOf (pix w y x c) = c := by
  unfold chanOf pix
  omega

theorem pix_decode (w i : ℕ) (hw : 0 < w) :
    pix w (rowOf w i) (colOf w i) (chanOf i) = i := by
  have h3w : 0 < 3 * w := by omega
  have hdm := Nat.div_add_mod i (3 * w)
  have hdm3 := Nat.div_add_mod (i % (3 * w)) 3
  have hmod : i % (3 * w) % 3 = i % 3 :=
    Nat.mod_mod_of_dvd i ⟨w, rfl⟩
  unfold pix rowOf colOf chanOf
  rw [← hmod]
  calc (i / (3 * w) * w + i % (3 * w) / 3) * 3 + i % (3 * w) % 3
      = 3 * w * (i / (3 * w)) + (3 * (i % (3 * w) / 3) + i % (3 * w) % 3) := by
        ring
    _ = 3 * w * (i / (3 * w)) + i % (3 * w) := by rw [hdm3]
    _ = i := hdm

/-! ### Partition planner

Translated from `graph_diffusion_rgb_parallel`
(`src/hybrid/graph_denoise_rgb.c`, lines 84-116): the rows are split as
evenly as possible, the first `height mod size` ranks getting one extra
row; the effective region clamps away the global border rows. -/

def rows_per_proc (h size : ℕ) : ℕ := h / size

def extra_rows (h size : ℕ) : ℕ := h % size

def local_rows (h size r : ℕ) : ℕ :=
  if r < extra_rows h size then rows_per_proc h size + 1 else rows_per_proc h size

def local_start (h size r : ℕ) : ℕ :=
  if r < extra_rows h size then r * (rows_per_proc h size + 1)
  else r * rows_per_proc h size + extra_rows h size

def local_end (h size r : ℕ) : ℕ := local_start h size r + local_rows h size r

/-- Effective update region, lower bound: `(local_start < 1) ? 1 : local_start`. -/
def eff_start (h size r : ℕ) : ℕ := max (local_start h size r) 1

/-- Effective update region, upper bound: `(local_end > height-1) ? height-1 : local_end`.
In the C code this is an `int` computation; for `h = 0` the C value is `-1`
and the ℕ value is `0` — in both cases the region `[eff_start, eff_end)` is
empty, so the embedding is behaviourally faithful. -/
def eff_end (h size r : ℕ) : ℕ := min (local_end h size r) (h - 1)

/-- `displs[i] = eff_start * width * 3`, as a signed value (C `int`). -/
def displsZ (w h size r : ℕ) : ℤ := (eff_start h size r : ℤ) * w * 3

/-- `recvcounts[i] = (eff_end - eff_start) * width * 3`, as a signed value:
the C subtraction is on `int` and can go negative when `size > height`. -/
def recvcount (w h size r : ℕ) : ℤ :=
  (min (local_end h size r : ℤ) ((h : ℤ) - 1) - max (local_start h size r : ℤ) 1) * w * 3

/-! ### Local stencil update

Translated from the per-pixel body of the iteration loops
(`src/hybrid/graph_denoise_rgb.c` lines 129-148, identical to
`src/serial/graph_denoise_rgb.c` lines 73-95).  `float` arithmetic is
modelled over ℝ; the `(unsigned char)` cast of the clamped value is
truncation (`Int.floor` of a value already in `[0,255]`). -/

/-- `expf(-(diff * diff) / (2 * sigma * sigma))` with `sigma = 20.0` and
`diff = neighbors[i] - center` (an `int` difference). -/
noncomputable def weight (center nb : ℤ) : ℝ :=
  Real.exp (-(((nb : ℝ) - (center : ℝ)) * ((nb : ℝ) - (center : ℝ))) / (2 * 20 * 20))

/-- `smooth_value = weighted_value / weight_sum`, accumulated over the four
axis neighbors in source order (up, down, left, right). -/
noncomputable def smooth_value (center n0 n1 n2 n3 : ℤ) : ℝ :=
  (weight center n0 * (n0 : ℝ) + weight center n1 * (n1 : ℝ) +
      weight center n2 * (n2 : ℝ) + weight center n3 * (n3 : ℝ)) /
    (weight center n0 + weight center n1 + weight center n2 + weight center n3)

/-- `result = (diff_val > threshold) ? smooth_value : center + alpha * (smooth_value - center)`
with `threshold = 20.0` and `diff_val = fabsf(smooth_value - center)`. -/
noncomputable def stencil_result (alpha : ℝ) (center n0 n1 n2 n3 : ℤ) : ℝ :=
  if 20 < |smooth_value center n0 n1 n2 n3 - (center : ℝ)| then
    smooth_value center n0 n1 n2 n3
  else (center : ℝ) + alpha * (smooth_value center n0 n1 n2 n3 - (center : ℝ))

/-- `(unsigned char)(fminf(fmaxf(result, 0), 255))`. -/
noncomputable def clampByte (r : ℝ) : ℤ := ⌊min (max r 0) 255⌋

/-- One stencil evaluation at cell `(y, x, c)` of the snapshot `f`: reads the
center byte and its four axis neighbors, exactly as the source indexes them. -/
noncomputable def updCell (alpha : ℝ) (w : ℕ) (f : ℕ → ℤ) (y x c : ℕ) : ℤ :=
  clampByte (stencil_result alpha
    (f (pix w y x c))
    (f (pix w (y - 1) x c)) (f (pix w (y + 1) x c))
    (f (pix w y (x - 1) c)) (f (pix w y (x + 1) c)))

/-! ### Round structure -/

/-- Byte index `i` lies in the update region with row band `[a, b)`:
the loop bounds `a <= y < b`, `1 <= x < width - 1` of the source. -/
def inRegion (w a b i : ℕ) : Prop :=
  a ≤ rowOf w i ∧ rowOf w i < b ∧ 1 ≤ colOf w i ∧ colOf w i < w - 1

instance (w a b i : ℕ) : Decidable (inRegion w a b i) := by
  unfold inRegion; infer_instance

/-- A worker's scratch (`next`) buffer after one local update pass:
`memcpy(next, curr, ...)` followed by the stencil writes over the rows
`[a, b)` = `[local_eff_start, local_eff_end)`. -/
noncomputable def bandNext (alpha : ℝ) (w a b : ℕ) (f : ℕ → ℤ) : ℕ → ℤ :=
  fun i =>
    if inRegion w a b i then updCell alpha w f (rowOf w i) (colOf w i) (chanOf i)
    else f i

/-- The globally visible snapshot after one full round of the distributed
engine: every rank `r < size` deposits `recvcounts[r]` bytes of its scratch
buffer at offset `displs[r]` of `curr` (the `MPI_Allgatherv` of lines
153-156); bytes outside every window keep their old value. -/
noncomputable def allgather_round (alpha : ℝ) (w h size : ℕ) (f : ℕ → ℤ) : ℕ → ℤ :=
  (List.range size).foldl
    (fun acc r => fun i =>
      if displsZ w h size r ≤ (i : ℤ) ∧ (i : ℤ) < displsZ w h size r + recvcount w h size r
      then bandNext alpha w (eff_start h size r) (eff_end h size r) f i
      else acc i)
    f

/-- The distributed engine `graph_diffusion_rgb_parallel`
(`src/hybrid/graph_denoise_rgb.c` lines 75-163): `curr` starts as a copy of
the input and each of the `iterations` rounds rebuilds it from every rank's
scratch buffer; the output is the final `curr`. -/
noncomputable def graph_diffusion_rgb_parallel
    (alpha : ℝ) (iterations w h size : ℕ) (input : ℕ → ℤ) : ℕ → ℤ :=
  (allgather_round alpha w h size)^[iterations] input

/-- One iteration of the serial engine on the state
`(temp, outdata)`: the stencil pass reads `temp` and writes the interior
rows `[1, h-1)` of `outdata`, then the two pointers are swapped
(`src/serial/graph_denoise_rgb.c` lines 69-102). -/
noncomputable def serial_step (alpha : ℝ) (w h : ℕ)
    (s : (ℕ → ℤ) × (ℕ → ℤ)) : (ℕ → ℤ) × (ℕ → ℤ) :=
  (fun i =>
      if inRegion w 1 (h - 1) i then updCell alpha w s.1 (rowOf w i) (colOf w i) (chanOf i)
      else s.2 i,
    s.1)

/-- The serial engine `graph_diffusion_rgb`
(`src/serial/graph_denoise_rgb.c` lines 62-109).  `temp` starts as a copy
of the input; `output->data` starts as the caller's freshly `malloc`-ed,
uninitialised buffer, modelled by the `junk` parameter.  After the loop the
code copies `temp` back into `output->data` only when `iterations` is odd;
the result is the final content of `output->data`. -/
noncomputable def graph_diffusion_rgb
    (alpha : ℝ) (iterations w h : ℕ) (input junk : ℕ → ℤ) : ℕ → ℤ :=
  let s := (serial_step alpha w h)^[iterations] (input, junk)
  if iterations % 2 = 1 then s.1 else s.2

/-! ### Arbitrary update order within a round

The source updates the cells `(y, x, c)` of the effective region in a
`collapse(2)` OpenMP loop nest, each write depending only on the
round-start snapshot `curr` and going to the distinct scratch index
`(y*width+x)*3+c`.  `writeCells` performs those writes in an arbitrary
list order so that order-independence can be stated. -/

def cellIdx (w : ℕ) (cell : ℕ × ℕ × ℕ) : ℕ := pix w cell.1 cell.2.1 cell.2.2

/-- A cell of the effective region with row band `[a, b)`. -/
def validCell (w a b : ℕ) (cell : ℕ × ℕ × ℕ) : Prop :=
  a ≤ cell.1 ∧ cell.1 < b ∧ 1 ≤ cell.2.1 ∧ cell.2.1 < w - 1 ∧ cell.2.2 < 3

instance (w a b : ℕ) (cell : ℕ × ℕ × ℕ) : Decidable (validCell w a b cell) := by
  unfold validCell; infer_instance

/-- Perform the stencil writes of one round into the scratch buffer in the
given order: each write stores `updCell` of the round-start snapshot `curr`
at the cell's own byte index. -/
noncomputable def writeCells (alpha : ℝ) (w : ℕ) (curr : ℕ → ℤ)
    (order : List (ℕ × ℕ × ℕ)) (scratch : ℕ → ℤ) : ℕ → ℤ :=
  order.foldl
    (fun buf cell => fun i =>
      if i = cellIdx w cell then updCell alpha w curr cell.1 cell.2.1 cell.2.2
      else buf i)
    scratch

/-! ### Spec-side statement of the per-pixel rule

Modelled from the spec's words (section 4.2): Gaussian weights
`exp(-(neighbor_i - center)^2 / (2*sigma^2))` with `sigma = 20`,
`smooth = sum(w_i*n_i)/sum(w_i)`, edge test `|smooth - center| > 20`
choosing full replacement versus the `alpha` blend, and final clamp to
`[0,255]` with truncation to an 8-bit integer.  Used only to compare with
the code-derived `updCell`. -/

noncomputable def specWeight (center nb : ℤ) : ℝ :=
  Real.exp (-((nb : ℝ) - (center : ℝ)) ^ 2 / (2 * 20 ^ 2))

noncomputable def specSmooth (center n0 n1 n2 n3 : ℤ) : ℝ :=
  (specWeight center n0 * (n0 : ℝ) + specWeight center n1 * (n1 : ℝ) +
      specWeight center n2 * (n2 : ℝ) + specWeight center n3 * (n3 : ℝ)) /
    (specWeight center n0 + specWeight center n1 + specWeight center n2 + specWeight center n3)

noncomputable def specUpdate (alpha : ℝ) (center n0 n1 n2 n3 : ℤ) : ℤ :=
  ⌊min (max (if 20 < |specSmooth center n0 n1 n2 n3 - (center : ℝ)| then
        specSmooth center n0 n1 n2 n3
      else (center : ℝ) + alpha * (specSmooth center n0 n1 n2 n3 - (center : ℝ))) 0) 255⌋

/-! ### Entry points and error handling

Models of the two `main` functions.  The externally visible inputs are the
argument count, the parsed iteration count and whether `read_ppm`
succeeds; the observable outcome is the exit code plus, for the
distributed variant, the per-rank trace of collective operations and of
the compute/write phases. -/

/-- Collective operations and phases a rank of the hybrid program goes
through, in program order. -/
inductive Ev
  | bcast_flag (err : Bool)
  | bcast_dim
  | bcast_image
  | compute
  | write_out
deriving DecidableEq

/-- One rank of the hybrid `main` (`src/hybrid/graph_denoise_rgb.c` lines
165-273): argument-count check, positive-iterations check, the
single error-flag broadcast driven by rank 0's `read_ppm` result, then the
width/height/image broadcasts, the call to the engine and (rank 0 only)
the output write.  Returns the event trace and the exit code. -/
def hybrid_rank_run (rank argc : ℕ) (iterations : ℤ) (loadOk : Bool) : List Ev × ℕ :=
  if argc ≠ 5 then ([], 1)
  else if iterations ≤ 0 then ([], 1)
  else if loadOk = false then ([Ev.bcast_flag true], 1)
  else if rank = 0 then
    ([Ev.bcast_flag false, Ev.bcast_dim, Ev.bcast_dim, Ev.bcast_image,
      Ev.compute, Ev.write_out], 0)
  else
    ([Ev.bcast_flag false, Ev.bcast_dim, Ev.bcast_dim, Ev.bcast_image,
      Ev.compute], 0)

/-- Exit code of the serial `main`
(`src/serial/graph_denoise_rgb.c` lines 111-150). -/
def serial_main_exit (argc : ℕ) (iterations : ℤ) (loadOk : Bool) : ℕ :=
  if argc ≠ 5 then 1
  else if iterations ≤ 0 then 1
  else if loadOk = false then 1
  else 0

/-- The only validation the hybrid `main` performs before the engine runs
(lines 179-195): the argument count and the iteration count.  Neither the
image height nor the worker count is inspected. -/
def hybrid_validate (argc : ℕ) (iterations : ℤ) : Bool :=
  argc = 5 ∧ 0 < iterations

/-! ### Kernel lemmas -/

theorem weight_eq_specWeight (center nb : ℤ) :
    weight center nb = specWeight center nb := by
  unfold weight specWeight
  congr 1
  ring

theorem weight_self (v : ℤ) : weight v v = 1 := by
  unfold weight
  simp

theorem smooth_value_const (v : ℤ) : smooth_value v v v v v = (v : ℝ) := by
  unfold smooth_value
  rw [weight_self]
  norm_num
  rw [div_eq_iff (by norm_num : (4:ℝ) ≠ 0)]
  ring

theorem clampByte_intCast (v : ℤ) (h0 : 0 ≤ v) (h255 : v ≤ 255) :
    clampByte (v : ℝ) = v := by
  unfold clampByte
  rw [max_eq_left (by exact_mod_cast h0),
    min_eq_left (by exact_mod_cast h255), Int.floor_intCast]

theorem stencil_result_const (alpha : ℝ) (v : ℤ) :
    stencil_result alpha v v v v v = (v : ℝ) := by
  unfold stencil_result
  rw [smooth_value_const]
  simp

/-- On a constant snapshot every stencil evaluation returns the constant. -/
theorem updCell_const (alpha : ℝ) (w : ℕ) (v : ℤ) (h0 : 0 ≤ v) (h255 : v ≤ 255)
    (y x c : ℕ) : updCell alpha w (fun _ => v) y x c = v := by
  unfold updCell
  rw [stencil_result_const, clampByte_intCast v h0 h255]

/-- C4: For every snapshot, every cell `(y, x, c)` and every `alpha`, the
code's per-pixel update (`updCell`, translated from the stencil body of
`graph_diffusion_rgb_parallel` / `graph_diffusion_rgb`) coincides with the
spec's rule `specUpdate`: Gaussian weights
`exp(-(n_i - center)^2 / (2*20^2))` over the four axis neighbors,
`smooth = sum(w_i n_i) / sum(w_i)`, full replacement by `smooth` when
`|smooth - center| > 20`, otherwise the blend
`center + alpha*(smooth - center)`, clamped to `[0,255]` and truncated. -/
theorem update_matches_spec_rule (alpha : ℝ) (w : ℕ) (f : ℕ → ℤ) (y x c : ℕ) :
    updCell alpha w f y x c =
      specUpdate alpha (f (pix w y x c))
        (f (pix w (y - 1) x c)) (f (pix w (y + 1) x c))
        (f (pix w y (x - 1) c)) (f (pix w y (x + 1) c)) := by
  unfold updCell clampByte stencil_result smooth_value specUpdate specSmooth
  rw [weight_eq_specWeight, weight_eq_specWeight, weight_eq_specWeight,
    weight_eq_specWeight]

/-! ### Constant snapshots are fixed points of a round -/

theorem bandNext_const (alpha : ℝ) (w a b : ℕ) (v : ℤ) (h0 : 0 ≤ v) (h255 : v ≤ 255)
    (i : ℕ) : bandNext alpha w a b (fun _ => v) i = v := by
  unfold bandNext
  split
  · exact updCell_const alpha w v h0 h255 _ _ _
  · rfl

theorem allgather_round_const (alpha : ℝ) (w h size : ℕ) (v : ℤ)
    (h0 : 0 ≤ v) (h255 : v ≤ 255) :
    allgather_round alpha w h size (fun _ => v) = fun _ => v := by
  unfold allgather_round
  funext i
  suffices hgen : ∀ (l : List ℕ) (acc : ℕ → ℤ), (∀ j, acc j = v) →
      (l.foldl
        (fun (acc : ℕ → ℤ) (r : ℕ) => fun (i : ℕ) =>
          if displsZ w h size r ≤ (i : ℤ) ∧
              (i : ℤ) < displsZ w h size r + recvcount w h size r
          then bandNext alpha w (eff_start h size r) (eff_end h size r) (fun _ => v) i
          else acc i)
        acc) i = v by
    exact hgen (List.range size) (fun _ => v) (fun _ => rfl)
  intro l
  induction l with
  | nil => intro acc hacc; exact hacc i
  | cons r l ih =>
    intro acc hacc
    apply ih
    intro j
    dsimp only
    split
    · exact bandNext_const alpha w _ _ v h0 h255 j
    · exact hacc j

theorem parallel_const_fixed (alpha : ℝ) (iterations w h size : ℕ) (v : ℤ)
    (h0 : 0 ≤ v) (h255 : v ≤ 255) :
    graph_diffusion_rgb_parallel alpha iterations w h size (fun _ => v) = fun _ => v := by
  unfold graph_diffusion_rgb_parallel
  exact Function.iterate_fixed (allgather_round_const alpha w h size v h0 h255) iterations

/-- C7: a 4×4 image whose every byte is 128, run with `alpha = 0.5`,
`iterations = 3` and each worker count dividing 4 (1, 2 and 4), comes out
of the distributed engine unchanged: on a uniform snapshot every neighbor
difference is zero, so `smooth` equals the center exactly and every update
returns the center value. -/
theorem flat_gray_4x4_fixed :
    graph_diffusion_rgb_parallel (1/2) 3 4 4 1 (fun _ => 128) = (fun _ => (128:ℤ)) ∧
    graph_diffusion_rgb_parallel (1/2) 3 4 4 2 (fun _ => 128) = (fun _ => (128:ℤ)) ∧
    graph_diffusion_rgb_parallel (1/2) 3 4 4 4 (fun _ => 128) = (fun _ => (128:ℤ)) :=
  ⟨parallel_const_fixed (1/2) 3 4 4 1 128 (by norm_num) (by norm_num),
   parallel_const_fixed (1/2) 3 4 4 2 128 (by norm_num) (by norm_num),
   parallel_const_fixed (1/2) 3 4 4 4 128 (by norm_num) (by norm_num)⟩

/-! ### Behaviour of a round at a single interior cell -/

theorem bandNext_at_pix (alpha : ℝ) (w a b : ℕ) (f : ℕ → ℤ) (y x c : ℕ)
    (hy1 : a ≤ y) (hy2 : y < b) (hx1 : 1 ≤ x) (hx2 : x < w - 1) (hc : c < 3) :
    bandNext alpha w a b f (pix w y x c) = updCell alpha w f y x c := by
  have hxw : x < w := by omega
  unfold bandNext
  rw [if_pos, rowOf_pix w y x c hxw hc, colOf_pix w y x c hxw hc, chanOf_pix w y x c hc]
  unfold inRegion
  rw [rowOf_pix w y x c hxw hc, colOf_pix w y x c hxw hc]
  exact ⟨hy1, hy2, hx1, hx2⟩

/-- C6: with `alpha = 0`, a round of the engine leaves every interior
non-edge cell (`|smooth - center| <= 20`) bit-identical — the blend
degenerates to `center + 0*(smooth - center)` and the clamp/truncate of a
byte value is the identity — while every interior edge cell
(`|smooth - center| > 20`) is still replaced by its (clamped, truncated)
smooth value.  The run is `iterations` iterates of this round map, so a
one-iteration run satisfies the claim verbatim and no run ever alters a
cell that stays non-edge. -/
theorem alpha_zero_round (w a b : ℕ) (f : ℕ → ℤ) (y x c : ℕ)
    (hy1 : a ≤ y) (hy2 : y < b) (hx1 : 1 ≤ x) (hx2 : x < w - 1) (hc : c < 3)
    (h0 : 0 ≤ f (pix w y x c)) (h255 : f (pix w y x c) ≤ 255) :
    (|smooth_value (f (pix w y x c)) (f (pix w (y - 1) x c)) (f (pix w (y + 1) x c))
        (f (pix w y (x - 1) c)) (f (pix w y (x + 1) c)) - (f (pix w y x c) : ℝ)| ≤ 20 →
      bandNext 0 w a b f (pix w y x c) = f (pix w y x c)) ∧
    (20 < |smooth_value (f (pix w y x c)) (f (pix w (y - 1) x c)) (f (pix w (y + 1) x c))
        (f (pix w y (x - 1) c)) (f (pix w y (x + 1) c)) - (f (pix w y x c) : ℝ)| →
      bandNext 0 w a b f (pix w y x c) =
        clampByte (smooth_value (f (pix w y x c)) (f (pix w (y - 1) x c))
          (f (pix w (y + 1) x c)) (f (pix w y (x - 1) c)) (f (pix w y (x + 1) c)))) := by
  rw [bandNext_at_pix 0 w a b f y x c hy1 hy2 hx1 hx2 hc]
  unfold updCell stencil_result
  constructor
  · intro hle
    rw [if_neg (not_lt.mpr hle)]
    rw [zero_mul, add_zero, clampByte_intCast _ h0 h255]
  · intro hgt
    rw [if_pos hgt]

/-! ### Index bounds of the stencil loop -/

theorem pix_lt (w h y x c : ℕ) (hy : y ≤ h - 1) (hx : x ≤ w - 1) (hc : c < 3)
    (hw : 1 ≤ w) (hh : 1 ≤ h) : pix w y x c < w * h * 3 := by
  have hyw : y * w + x < h * w := by
    have h1 : y * w ≤ (h - 1) * w := Nat.mul_le_mul_right w hy
    have h2 : y * w + x < y * w + w := by omega
    have h3 : y * w + w ≤ (h - 1) * w + w := by omega
    have h4 : (h - 1) * w + w = h * w := by
      have := Nat.succ_pred_eq_of_pos hh
      calc (h - 1) * w + w = (h - 1 + 1) * w := by ring
        _ = h * w := by rw [Nat.sub_add_cancel hh]
    omega
  unfold pix
  calc (y * w + x) * 3 + c < ((y * w + x) + 1) * 3 := by omega
    _ ≤ h * w * 3 := by omega
    _ = w * h * 3 := by ring

/-- C10 (implicit): for an image buffer of length `width*height*3` and any
interior cell `1 <= y <= height-2`, `1 <= x <= width-2`, `c < 3`, the five
snapshot indices the stencil reads (center and four axis neighbors) and
the one scratch index it writes (`pix w y x c`, the same expression as the
center read) all lie below `width*height*3`, so the embedded indexing is
total and in bounds. -/
theorem stencil_indices_in_bounds (w h y x c : ℕ)
    (hy1 : 1 ≤ y) (hy2 : y ≤ h - 2) (hx1 : 1 ≤ x) (hx2 : x ≤ w - 2) (hc : c < 3) :
    pix w y x c < w * h * 3 ∧
    pix w (y - 1) x c < w * h * 3 ∧
    pix w (y + 1) x c < w * h * 3 ∧
    pix w y (x - 1) c < w * h * 3 ∧
    pix w y (x + 1) c < w * h * 3 := by
  have hh : 3 ≤ h := by omega
  have hw : 3 ≤ w := by omega
  refine ⟨?_, ?_, ?_, ?_, ?_⟩ <;>
    exact pix_lt w h _ _ _ (by omega) (by omega) hc (by omega) (by omega)

/-- C8: the hybrid program performs no validation of the worker count
against the image height: its only pre-computation checks are the argument
count and the iteration count (`hybrid_validate`), and with `height = 2`,
`worker_count = 3` a run with well-formed arguments proceeds to compute a
partition table in which rank 2 has an empty row range `[2, 2)`, an
inverted effective region `[2, 1)` and a negative gather count
`recvcounts[2] = -12` (at `width = 4`) — instead of failing validation
before any partition or stencil computation as the claim requires. -/
theorem no_height_validation_negative_count :
    hybrid_validate 5 1 = true ∧
    local_start 2 3 2 = 2 ∧ local_rows 2 3 2 = 0 ∧
    eff_start 2 3 2 = 2 ∧ eff_end 2 3 2 = 1 ∧
    recvcount 4 2 3 2 = -12 := by
  refine ⟨rfl, ?_, ?_, ?_, ?_, ?_⟩ <;> decide

/-- C9: an invalid argument count, a non-positive iteration count or a
failed image load each make both variants exit 1 with no compute phase; on
a load failure the only collective any rank performs is the single
error-flag broadcast (in particular no image buffer broadcast), all ranks
of the distributed variant return the same exit code for the same inputs,
and a successful run exits 0 with rank 0 writing the output. -/
theorem main_exit_behaviour (rank argc : ℕ) (iterations : ℤ) (loadOk : Bool) :
    ((argc ≠ 5 ∨ iterations ≤ 0 ∨ loadOk = false) →
      (hybrid_rank_run rank argc iterations loadOk).2 = 1 ∧
      serial_main_exit argc iterations loadOk = 1 ∧
      Ev.compute ∉ (hybrid_rank_run rank argc iterations loadOk).1) ∧
    (loadOk = false →
      Ev.bcast_image ∉ (hybrid_rank_run rank argc iterations loadOk).1 ∧
      (argc = 5 → 0 < iterations →
        (hybrid_rank_run rank argc iterations loadOk).1 = [Ev.bcast_flag true])) ∧
    (∀ rank', (hybrid_rank_run rank' argc iterations loadOk).2 =
      (hybrid_rank_run rank argc iterations loadOk).2) ∧
    (argc = 5 → 0 < iterations → loadOk = true →
      (hybrid_rank_run rank argc iterations loadOk).2 = 0 ∧
      serial_main_exit argc iterations loadOk = 0 ∧
      Ev.write_out ∈ (hybrid_rank_run 0 argc iterations loadOk).1 ∧
      Ev.compute ∈ (hybrid_rank_run rank argc iterations loadOk).1) := by
  refine ⟨?_, ?_, ?_, ?_⟩
  · intro hbad
    unfold hybrid_rank_run serial_main_exit
    rcases hbad with h | h | h
    · simp [h]
    · by_cases h5 : argc = 5 <;> simp [h5, h]
    · by_cases h5 : argc = 5 <;> by_cases hit : iterations ≤ 0 <;> simp [h5, hit, h]
  · intro hload
    unfold hybrid_rank_run
    by_cases h5 : argc = 5 <;> by_cases hit : iterations ≤ 0 <;>
      simp [h5, hit, hload]
  · intro rank'
    unfold hybrid_rank_run
    by_cases h5 : argc = 5 <;> by_cases hit : iterations ≤ 0 <;>
      cases loadOk <;> by_cases hr : rank = 0 <;> by_cases hr' : rank' = 0 <;>
      simp [h5, hit, hr, hr']
  · intro h5 hit hload
    unfold hybrid_rank_run serial_main_exit
    by_cases hr : rank = 0 <;>
      simp [h5, hit, hr, hload, not_le.mpr hit]

/-! ### Partition planner lemmas -/

theorem local_start_zero (h size : ℕ) : local_start h size 0 = 0 := by
  unfold local_start
  split <;> omega

theorem local_start_succ (h size r : ℕ) :
    local_start h size (r + 1) = local_end h size r := by
  unfold local_end local_start local_rows
  split_ifs <;> ring_nf <;> omega

theorem local_start_size (h size : ℕ) (hs : 0 < size) :
    local_start h size size = h := by
  have he : h % size < size := Nat.mod_lt h hs
  unfold local_start rows_per_proc extra_rows
  rw [if_neg (by omega)]
  exact Nat.div_add_mod h size

theorem local_start_mono (h size : ℕ) : Monotone (local_start h size) :=
  monotone_nat_of_le_succ fun r => by
    rw [local_start_succ]; unfold local_end; omega

theorem cover_below (h size : ℕ) : ∀ n, ∀ y, y < local_start h size n →
    ∃ r, r < n ∧ local_start h size r ≤ y ∧ y < local_end h size r := by
  intro n
  induction n with
  | zero => intro y hy; rw [local_start_zero] at hy; omega
  | succ n ih =>
    intro y hy
    rw [local_start_succ] at hy
    by_cases hlo : y < local_start h size n
    · obtain ⟨r, hr, hs', he'⟩ := ih y hlo
      exact ⟨r, by omega, hs', he'⟩
    · exact ⟨n, by omega, by omega, hy⟩

/-- C3: for every height and every worker count between 1 and the height,
the row ranges `[local_start, local_end)` produced by the partition
formula (a pure function of `(height, worker_count, rank)`) tile `[0,
height)` exactly: every row below the height belongs to the range of some
rank below the worker count and to no two distinct ranks, and no range
reaches outside `[0, height)`. -/
theorem partition_tiles (h size : ℕ) (hs : 1 ≤ size) (_hsh : size ≤ h) :
    (∀ y, y < h ↔ ∃ r, r < size ∧ local_start h size r ≤ y ∧ y < local_end h size r) ∧
    (∀ r1 r2 y, r1 < size → r2 < size →
      local_start h size r1 ≤ y → y < local_end h size r1 →
      local_start h size r2 ≤ y → y < local_end h size r2 → r1 = r2) := by
  constructor
  · intro y
    constructor
    · intro hy
      apply cover_below h size size y
      rwa [local_start_size h size hs]
    · rintro ⟨r, hr, _, he'⟩
      have h1 : local_end h size r ≤ local_start h size size := by
        rw [← local_start_succ]
        exact local_start_mono h size (by omega)
      rw [local_start_size h size hs] at h1
      omega
  · intro r1 r2 y hr1 hr2 hs1 he1 hs2 he2
    rcases lt_trichotomy r1 r2 with hlt | heq | hgt
    · exfalso
      have : local_end h size r1 ≤ local_start h size r2 := by
        rw [← local_start_succ]
        exact local_start_mono h size (by omega)
      omega
    · exact heq
    · exfalso
      have : local_end h size r2 ≤ local_start h size r1 := by
        rw [← local_start_succ]
        exact local_start_mono h size (by omega)
      omega

/-! ### Order independence of the writes within a round -/

theorem writeCells_eq (alpha : ℝ) (w a b : ℕ) (curr : ℕ → ℤ)
    (order : List (ℕ × ℕ × ℕ)) (hvalid : ∀ cell ∈ order, validCell w a b cell)
    (scratch : ℕ → ℤ) (i : ℕ) :
    writeCells alpha w curr order scratch i =
      if ∃ cell ∈ order, cellIdx w cell = i
      then updCell alpha w curr (rowOf w i) (colOf w i) (chanOf i)
      else scratch i := by
  induction order generalizing scratch with
  | nil => simp [writeCells]
  | cons cell rest ih =>
    have hstep : writeCells alpha w curr (cell :: rest) scratch =
        writeCells alpha w curr rest
          (fun j => if j = cellIdx w cell
            then updCell alpha w curr cell.1 cell.2.1 cell.2.2 else scratch j) := rfl
    rw [hstep, ih (fun d hd => hvalid d (List.mem_cons_of_mem cell hd))]
    by_cases hrest : ∃ d ∈ rest, cellIdx w d = i
    · obtain ⟨d, hd, hdi⟩ := hrest
      rw [if_pos ⟨d, hd, hdi⟩, if_pos ⟨d, List.mem_cons_of_mem cell hd, hdi⟩]
    · rw [if_neg hrest]
      by_cases hcell : i = cellIdx w cell
      · have hv := hvalid cell (List.mem_cons_self cell rest)
        unfold validCell at hv
        have hxw : cell.2.1 < w := by omega
        rw [if_pos hcell, if_pos ⟨cell, List.mem_cons_self cell rest, hcell.symm⟩]
        subst hcell
        unfold cellIdx
        rw [rowOf_pix w _ _ _ hxw hv.2.2.2.2, colOf_pix w _ _ _ hxw hv.2.2.2.2,
          chanOf_pix w _ _ _ hv.2.2.2.2]
      · rw [if_neg hcell, if_neg]
        rintro ⟨d, hd, hdi⟩
        rcases List.mem_cons.mp hd with hdc | hdr
        · exact hcell (hdc ▸ hdi.symm)
        · exact hrest ⟨d, hdr, hdi⟩

/-- C5: the engine is deterministic and, within one round, the result does
not depend on the order in which the cells of the effective region are
updated: performing the round's writes (`writeCells`) in ANY list order
that enumerates the cells of the effective region — permutations and even
repetitions included — onto the scratch copy of the snapshot yields
exactly the engine's scratch buffer `bandNext`.  Every write reads only
the round-start snapshot `curr` and lands at the cell's own distinct byte
index, and the embedded runs themselves are pure functions of `(input,
alpha, iterations, worker_count)`, so identical runs produce identical
output byte for byte. -/
theorem round_order_independent (alpha : ℝ) (w a b : ℕ) (curr : ℕ → ℤ)
    (order : List (ℕ × ℕ × ℕ))
    (horder : ∀ cell, cell ∈ order ↔ validCell w a b cell) :
    writeCells alpha w curr order curr = bandNext alpha w a b curr := by
  funext i
  rw [writeCells_eq alpha w a b curr order (fun d hd => (horder d).mp hd) curr i]
  unfold bandNext
  by_cases hex : ∃ cell ∈ order, cellIdx w cell = i
  · obtain ⟨cell, hmem, hidx⟩ := hex
    have hv := (horder cell).mp hmem
    unfold validCell at hv
    have hxw : cell.2.1 < w := by omega
    have hreg : inRegion w a b i := by
      unfold inRegion
      rw [← hidx]
      unfold cellIdx
      rw [rowOf_pix w _ _ _ hxw hv.2.2.2.2, colOf_pix w _ _ _ hxw hv.2.2.2.2]
      exact ⟨hv.1, hv.2.1, hv.2.2.1, hv.2.2.2.1⟩
    rw [if_pos ⟨cell, hmem, hidx⟩, if_pos hreg]
  · rw [if_neg hex, if_neg]
    intro hreg
    apply hex
    have hreg' := hreg
    unfold inRegion at hreg'
    have hw0 : 0 < w := by omega
    refine ⟨(rowOf w i, colOf w i, chanOf i), ?_, ?_⟩
    · apply (horder _).mpr
      unfold validCell
      exact ⟨hreg'.1, hreg'.2.1, hreg'.2.2.1, hreg'.2.2.2, Nat.mod_lt i (by omega)⟩
    · unfold cellIdx
      exact pix_decode w i hw0

/-! ### Border bytes of one-iteration runs on a 3×3 image

The hybrid engine never copies anything into byte 0 (row `y = 0` is outside
every effective region), so it keeps the input value there; the serial
engine's output buffer starts as uninitialised `junk` and its byte 0 is
never written, so the junk byte is returned. -/

theorem serial_one_iter_border (alpha : ℝ) (input junk : ℕ → ℤ) :
    graph_diffusion_rgb alpha 1 3 3 input junk 0 = junk 0 := by
  show (if (1:ℕ) % 2 = 1 then ((serial_step alpha 3 3)^[1] (input, junk)).1
    else ((serial_step alpha 3 3)^[1] (input, junk)).2) 0 = junk 0
  rw [if_pos (by norm_num), Function.iterate_one]
  show (if inRegion 3 1 (3 - 1) 0 then
    updCell alpha 3 input (rowOf 3 0) (colOf 3 0) (chanOf 0) else junk 0) = junk 0
  rw [if_neg (by decide)]

theorem hybrid_one_rank_border (alpha : ℝ) (input : ℕ → ℤ) :
    graph_diffusion_rgb_parallel alpha 1 3 3 1 input 0 = input 0 := by
  unfold graph_diffusion_rgb_parallel allgather_round
  rw [Function.iterate_one, show List.range 1 = [0] from rfl,
    List.foldl_cons, List.foldl_nil]
  show (if displsZ 3 3 1 0 ≤ ((0:ℕ) : ℤ) ∧
      ((0:ℕ) : ℤ) < displsZ 3 3 1 0 + recvcount 3 3 1 0
    then bandNext alpha 3 (eff_start 3 1 0) (eff_end 3 1 0) input 0 else input 0) = input 0
  rw [if_neg (by decide)]

/-- C1: the distributed engine with `worker_count = 1` is NOT
pixel-for-pixel identical to the serial `graph_diffusion_rgb`: on the 3×3
image whose every byte is 100, with `alpha = 0.5` and one iteration, the
hybrid run keeps the border byte at index 0 equal to the input (100) while
the serial run returns the uninitialised output-buffer byte there
(modelled as junk value 0), because the serial code never initialises the
borders of its `malloc`-ed output buffer. -/
theorem worker1_differs_from_serial :
    graph_diffusion_rgb_parallel (1/2) 1 3 3 1 (fun _ => 100) 0 ≠
      graph_diffusion_rgb (1/2) 1 3 3 (fun _ => 100) (fun _ => 0) 0 := by
  rw [hybrid_one_rank_border (1/2) (fun _ => 100),
    serial_one_iter_border (1/2) (fun _ => 100) (fun _ => 0)]
  norm_num

/-- C2: the border bytes of the serial run's output are NOT bit-identical
to the input: on the 3×3 image whose every byte is 77, with `alpha = 0.5`
and one iteration, the output byte at index 0 (pixel `(0,0)`, channel R —
a border pixel) is the uninitialised output-buffer byte (modelled as junk
value 5), not the input's 77.  The rounds indeed never write a border
cell, but the serial code also never copies the input's borders into the
buffer it returns. -/
theorem serial_border_leaks_junk :
    graph_diffusion_rgb (1/2) 1 3 3 (fun _ => 77) (fun _ => 5) 0 ≠ (fun _ => (77:ℤ)) 0 := by
  rw [serial_one_iter_border (1/2) (fun _ => 77) (fun _ => 5)]
  norm_num

/-! ### Concrete witnesses -/

theorem partition_tiles_witness :
    ∃ r, r < 3 ∧ local_start 5 3 r ≤ 4 ∧ 4 < local_end 5 3 r :=
  ((partition_tiles 5 3 (by decide) (by decide)).1 4).mp (by decide)

theorem round_order_independent_witness :
    writeCells 0 3 (fun _ => 0) [(1, 1, 2), (1, 1, 0), (1, 1, 1)] (fun _ => 0) =
      bandNext 0 3 1 2 (fun _ => 0) := by
  apply round_order_independent 0 3 1 2 (fun _ => 0) [(1, 1, 2), (1, 1, 0), (1, 1, 1)]
  rintro ⟨y, x, c⟩
  simp [validCell, Prod.ext_iff]
  omega

theorem alpha_zero_round_witness :
    bandNext 0 3 1 2 (fun _ => (7:ℤ)) (pix 3 1 1 0) = (fun _ => (7:ℤ)) (pix 3 1 1 0) := by
  have h := alpha_zero_round 3 1 2 (fun _ => (7:ℤ)) 1 1 0 (le_refl 1) (by norm_num)
    (le_refl 1) (by norm_num) (by norm_num) (by norm_num) (by norm_num)
  exact h.1 (by norm_num [smooth_value_const])

theorem main_exit_behaviour_witness :
    (hybrid_rank_run 1 5 2 false).2 = 1 ∧
    Ev.bcast_image ∉ (hybrid_rank_run 1 5 2 false).1 :=
  ⟨((main_exit_behaviour 1 5 2 false).1 (Or.inr (Or.inr rfl))).1,
   ((main_exit_behaviour 1 5 2 false).2.1 rfl).1⟩

theorem stencil_indices_in_bounds_witness :
    pix 3 1 1 0 < 3 * 3 * 3 ∧
    pix 3 (1 - 1) 1 0 < 3 * 3 * 3 ∧
    pix 3 (1 + 1) 1 0 < 3 * 3 * 3 ∧
    pix 3 1 (1 - 1) 0 < 3 * 3 * 3 ∧
    pix 3 1 (1 + 1) 0 < 3 * 3 * 3 :=
  stencil_indices_in_bounds 3 3 1 1 0 (by decide) (by decide) (by decide)
    (by decide) (by decide)

end GraphDenoise
